import Mathlib

/-!
Shallow embedding of the `sat` repository (a CDCL-style SAT solver written
in Python) and verification of its natural-language specification.

Modelling conventions:
* After canonicalisation every occurrence of a variable name shares one
  `Atom` object, whose mutable `value` field holds the assignment.  We model
  that shared mutable store as a total function `Assign : String → Option Bool`
  (`none` = Python `None` = unassigned).
* A runtime literal is a (name, polarity) pair; a runtime clause is its
  literal list.  Clause *identity* (Python objects compare by identity, the
  `Clause` class defines `__hash__` but no `__eq__`) is modelled by the
  clause's index in the solver's clause list.
* Python `set` iteration order is unspecified (string hashes are salted); we
  model sets as insertion-ordered duplicate-free lists, which fixes one of
  the admissible orders.
* Fallible code (`next(...)` without a default raising `StopIteration`,
  attribute access on `None`, networkx lookups of absent nodes) is modelled
  with an explicit `crash` result.
-/

namespace Sat

/-- A runtime literal after canonicalisation: variable name and polarity
(`Literal` in `base.py`; its atom is identified by name). -/
structure Lit where
  name : String
  positive : Bool
deriving DecidableEq, Repr

/-- A runtime clause is its ordered list of literals (`Clause` in `base.py`). -/
abbrev RClause := List Lit

/-- The shared assignment store: `Atom.value` for each variable name. -/
abbrev Assign := String → Option Bool

/-- `Literal.has_value` / `Atom.has_value`: the underlying atom is assigned. -/
def litHasValue (σ : Assign) (l : Lit) : Bool :=
  (σ l.name).isSome

/-- `Literal.__bool__`: `bool(atom)` if positive else `not bool(atom)`, where
`bool(atom) = bool(atom.value)` and `bool(None) = False`. -/
def litBool (σ : Assign) (l : Lit) : Bool :=
  let atomBool := (σ l.name).getD false
  if l.positive then atomBool else !atomBool

/-- `Clause.is_satisfied`: some literal with a value evaluates to true. -/
def is_satisfied (σ : Assign) (c : RClause) : Bool :=
  (c.filter (litHasValue σ)).any (litBool σ)

/-- `Clause.is_unsatisfied`: all literals assigned and none true. -/
def is_unsatisfied (σ : Assign) (c : RClause) : Bool :=
  if c.all (litHasValue σ) then !(c.any (litBool σ)) else false

/-- `Clause.is_unit`: the assigned literals number exactly `len - 1` and none
of them is true.  The Python comparison `len(assigned) == len(literals) - 1`
is over `int`, so we compare in `Int` (for the empty clause `0 ≠ -1`). -/
def is_unit (σ : Assign) (c : RClause) : Bool :=
  let assigned := c.filter (litHasValue σ)
  if (assigned.length : Int) = (c.length : Int) - 1 then
    !(assigned.any (litBool σ))
  else false

/-- `Clause.is_unresolved`: neither satisfied, unsatisfied nor unit. -/
def is_unresolved (σ : Assign) (c : RClause) : Bool :=
  !(is_satisfied σ c) && !(is_unsatisfied σ c) && !(is_unit σ c)

/-- Insertion-ordered model of `set.add` for literals (`Literal.__eq__`
compares atom name and polarity). -/
def insertDedupLit (l : List Lit) (x : Lit) : List Lit :=
  if x ∈ l then l else l ++ [x]

/-- `Clause.resolve`: partition the literals of both operands by polarity
(into Python sets), then keep the positive literals whose atom does not occur
negated and the negative literals whose atom does not occur positively. -/
def resolveClauses (c1 c2 : RClause) : RClause :=
  let chained := c1 ++ c2
  let positiveLits := (chained.filter (fun l => l.positive)).foldl insertDedupLit []
  let negativeLits := (chained.filter (fun l => !l.positive)).foldl insertDedupLit []
  (positiveLits.filter (fun p => !(negativeLits.any (fun n => n.name = p.name)))) ++
    (negativeLits.filter (fun n => !(positiveLits.any (fun p => p.name = n.name))))

/-- An `Atom` of `base.py` before canonicalisation: its identity is its name,
and it carries its own `value` field (pre-canonical atoms are not shared). -/
structure PAtom where
  name : String
  value : Option Bool
deriving DecidableEq, Repr

/-- A `Literal` of `base.py` before canonicalisation. -/
structure PLiteral where
  atom : PAtom
  positive : Bool
deriving DecidableEq, Repr

/-- A `Clause` of `base.py` before canonicalisation: its literal list. -/
abbrev PClause := List PLiteral

/-- Lookup in the `variables` dict of `canonize_clauses` (insertion-ordered
association list, first match). -/
def lookupVar : List (String × PAtom) → String → Option PAtom
  | [], _ => none
  | p :: ps, n => if p.1 = n then some p.2 else lookupVar ps n

/-- One literal of the `canonize_clauses` loop: if the atom's name is not yet
in `variables`, register this literal's atom; then rebuild the literal with
the canonical atom. -/
def canonLit (vars : List (String × PAtom)) (l : PLiteral) :
    List (String × PAtom) × PLiteral :=
  match lookupVar vars l.atom.name with
  | some a => (vars, ⟨a, l.positive⟩)
  | none => (vars ++ [(l.atom.name, l.atom)], ⟨l.atom, l.positive⟩)

/-- The inner loop of `canonize_clauses` over one clause's literals. -/
def canonLits (vars : List (String × PAtom)) :
    List PLiteral → List (String × PAtom) × List PLiteral
  | [] => (vars, [])
  | l :: ls =>
    let r1 := canonLit vars l
    let r2 := canonLits r1.1 ls
    (r2.1, r1.2 :: r2.2)

/-- The outer loop of `canonize_clauses` over the clause list. -/
def canonClauses (vars : List (String × PAtom)) :
    List PClause → List (String × PAtom) × List PClause
  | [] => (vars, [])
  | c :: cs =>
    let r1 := canonLits vars c
    let r2 := canonClauses r1.1 cs
    (r2.1, r1.2 :: r2.2)

/-- `canonize_clauses` in `solvers.py`: returns the `variables` dict and the
rebuilt clauses sharing one atom per name. -/
def canonize_clauses (clauses : List PClause) :
    List (String × PAtom) × List PClause :=
  canonClauses [] clauses

/-!  Implication graph (`graph.py`).  Python node objects have no `__eq__`,
so they compare by identity; we give each node a fresh `id` drawn from a
counter, making structural equality coincide with identity. -/

/-- Payload of a graph node: `DecisionNode(variable, value, decision_level)`
or `ConflictNode(variable, decision_level)`. -/
inductive NodeData where
  | decision (varName : String) (value : Bool) (level : Nat)
  | conflict (varName : String) (level : Nat)
deriving DecidableEq, Repr

/-- A node of the implication graph, with its identity tag. -/
structure Node where
  id : Nat
  data : NodeData
deriving DecidableEq, Repr

/-- `node.variable` (both node classes expose it). -/
def Node.varName : Node → String
  | ⟨_, .decision v _ _⟩ => v
  | ⟨_, .conflict v _⟩ => v

/-- `node.decision_level` (both node classes expose it). -/
def Node.level : Node → Nat
  | ⟨_, .decision _ _ k⟩ => k
  | ⟨_, .conflict _ k⟩ => k

/-- Whether the node is a `ConflictNode`. -/
def Node.isConflict : Node → Bool
  | ⟨_, .conflict _ _⟩ => true
  | _ => false

/-- A directed edge labelled with its antecedent clause.  The clause object
is identified by its index in the solver's clause list. -/
structure Edge where
  src : Node
  dst : Node
  ant : Nat
deriving DecidableEq, Repr

/-- `ImplicationGraph`: node set and adjacency in insertion order, the
decision stack, and the `conflict_node` attribute. -/
structure Graph where
  nodes : List Node
  edges : List Edge
  nextId : Nat
  decisions : List Node
  conflictNode : Option Node
deriving DecidableEq, Repr

/-- The fresh graph built by `ImplicationGraph.__init__`. -/
def emptyGraph : Graph :=
  { nodes := [], edges := [], nextId := 0, decisions := [], conflictNode := none }

/-- `next(filter(lambda n: n.variable == literal.atom, self.graph.nodes()))`
with a `none` result standing for the raised `StopIteration`. -/
def findNodeFor (g : Graph) (name : String) : Option Node :=
  g.nodes.find? (fun n => n.varName = name)

/-- `graph.add_edge(u, v, antecedent=c)`: networkx keeps the adjacency
position and replaces the data when the edge already exists. -/
def addEdge (g : Graph) (u v : Node) (ant : Nat) : Graph :=
  if g.edges.any (fun e => e.src = u && e.dst = v) then
    { g with edges := g.edges.map (fun e =>
        if e.src = u && e.dst = v then { e with ant := ant } else e) }
  else
    { g with edges := g.edges ++ [⟨u, v, ant⟩] }

/-- `ImplicationGraph.add_decision`: append to the decision stack and insert
an isolated decision node. -/
def addDecision (g : Graph) (name : String) (value : Bool) (level : Nat) : Graph :=
  let node : Node := ⟨g.nextId, .decision name value level⟩
  { g with
    nodes := g.nodes ++ [node]
    nextId := g.nextId + 1
    decisions := g.decisions ++ [node] }

/-- `ImplicationGraph.add_forced_decision`: insert a decision node, then for
every literal of the antecedent over a different atom, look up that atom's
node and add an edge labelled with the antecedent.  `none` models the
`StopIteration` raised when some lookup finds no node. -/
def addForcedDecision (g : Graph) (name : String) (value : Bool)
    (antId : Nat) (antLits : RClause) (level : Nat) : Option Graph :=
  let node : Node := ⟨g.nextId, .decision name value level⟩
  let g1 : Graph := { g with nodes := g.nodes ++ [node], nextId := g.nextId + 1 }
  (antLits.filter (fun l => l.name ≠ name)).foldl
    (fun acc l =>
      match acc with
      | none => none
      | some g2 =>
        match findNodeFor g2 l.name with
        | none => none
        | some prev => some (addEdge g2 prev node antId))
    (some g1)

/-- `ImplicationGraph.add_conflict`: create the conflict node, record it in
`conflict_node`, and add an edge from the node of every literal's atom in the
falsified clause.  `none` models the `StopIteration` of a failing lookup. -/
def addConflict (g : Graph) (name : String) (antId : Nat)
    (clauseLits : RClause) (level : Nat) : Option Graph :=
  let node : Node := ⟨g.nextId, .conflict name level⟩
  let g1 : Graph := { g with
    nodes := g.nodes ++ [node]
    nextId := g.nextId + 1
    conflictNode := some node }
  clauseLits.foldl
    (fun acc l =>
      match acc with
      | none => none
      | some g2 =>
        match findNodeFor g2 l.name with
        | none => none
        | some prev => some (addEdge g2 prev node antId))
    (some g1)

/-- Successors of a node in networkx adjacency (edge-insertion) order. -/
def successors (g : Graph) (u : Node) : List Node :=
  (g.edges.filter (fun e => e.src = u)).map (fun e => e.dst)

/-- In-edges of a node in networkx insertion order. -/
def inEdges (g : Graph) (v : Node) : List Edge :=
  g.edges.filter (fun e => e.dst = v)

/-- `nx.all_simple_paths(graph, src, dst)` in generator order: depth-first,
children in adjacency order, paths free of repeated nodes. -/
def dfsPaths (g : Graph) (dst : Node) :
    Nat → Node → List Node → List (List Node)
  | 0, _, _ => []
  | fuel + 1, u, visited =>
    if u = dst then [[u]]
    else
      ((successors g u).filter (fun v => !(visited.contains v) && v ≠ u)).foldr
        (fun v acc => ((dfsPaths g dst fuel v (u :: visited)).map (u :: ·)) ++ acc)
        []

/-- `ImplicationGraph.clear_decisions`: pop the decision stack down to the
kept level, delete every node (and incident edge) above that level, and reset
the variable of each deleted node in the shared store.  The `conflict_node`
attribute is left untouched by this method. -/
def clearDecisions (g : Graph) (σ : Assign) (keep : Nat) : Graph × Assign :=
  let decisions' := g.decisions.take keep
  let removed := g.nodes.filter (fun n => keep < n.level)
  let σ' : Assign := fun v => if removed.any (fun n => n.varName = v) then none else σ v
  let nodes' := g.nodes.filter (fun n => !(keep < n.level))
  let edges' := g.edges.filter (fun e => !(keep < e.src.level) && !(keep < e.dst.level))
  ({ g with nodes := nodes', edges := edges', decisions := decisions' }, σ')

/-- Result of a Python call: normal value, raised exception (`crash`), or
exhausted modelling fuel. -/
inductive Res (α : Type) where
  | ok (a : α)
  | crash
  | fuelOut
deriving DecidableEq, Repr

/-- `ImplicationGraph.find_uips`: `ok none` models the Python `None` result
(no conflict or no decisions); `crash` models the `StopIteration` raised by
`next(paths)` when no simple path exists from the last decision to the
conflict node. -/
def findUips (g : Graph) : Res (Option (List Node)) :=
  match g.conflictNode with
  | none => .ok none
  | some k =>
    match g.decisions.getLast? with
    | none => .ok none
    | some d =>
      match dfsPaths g k (g.nodes.length + 1) d [] with
      | [] => .crash
      | p0 :: rest =>
        let common0 := p0.filter (fun n => n ≠ k)
        .ok (some (rest.foldl (fun comm p => comm.filter (fun n => p.contains n)) common0))

/-- `ImplicationGraph.find_first_uip`: the last element of the UIP list, or
`None` when the list is falsy. -/
def findFirstUip (g : Graph) : Res (Option Node) :=
  match findUips g with
  | .crash => .crash
  | .fuelOut => .fuelOut
  | .ok none => .ok none
  | .ok (some uips) =>
    match uips.getLast? with
    | some u => .ok (some u)
    | none => .ok none

/-- Insertion-ordered model of `set.add` for antecedent clause ids
(`Clause` objects compare by identity, i.e. by their index in the clause
database). -/
def insertDedupNat (l : List Nat) (x : Nat) : List Nat :=
  if x ∈ l then l else l ++ [x]

/-- Insertion into a descending-sorted list, for `sorted(set, reverse=True)`. -/
def insertDesc (x : Nat) : List Nat → List Nat
  | [] => [x]
  | y :: ys => if y ≤ x then x :: y :: ys else y :: insertDesc x ys

/-- `sorted(decision_levels, reverse=True)` over a duplicate-free list. -/
def sortDesc (l : List Nat) : List Nat :=
  l.foldr insertDesc []

/-- `ImplicationGraph.get_conflict_information`: walk the direct successors
of the first UIP, collecting their levels, the antecedents of their in-edges
and the levels of those edges' sources; return the antecedent set and the
involved decision levels sorted descending. -/
def getConflictInformation (g : Graph) (uip : Node) : List Nat × List Nat :=
  let step := (successors g uip).foldl
    (fun (acc : List Nat × List Nat) s =>
      let acc1 := (acc.1, insertDedupNat acc.2 s.level)
      (inEdges g s).foldl
        (fun (a : List Nat × List Nat) e =>
          (insertDedupNat a.1 e.ant, insertDedupNat a.2 e.src.level))
        acc1)
    ([], [])
  (step.1, sortDesc step.2)

/-!  The solver driver (`solvers.py`, class `SimpleSatSolver` with the
default `decide_simple` heuristic).  The observability hooks are no-ops and
are omitted.  `solverConflictNode` models the `self.conflict_node` attribute
that `resolve_conflict` assigns `None` to (distinct from the graph's
`conflict_node`). -/

/-- The mutable state of a `SimpleSatSolver` during `solve`. -/
structure SolverState where
  varNames : List String
  assign : Assign
  clauses : List RClause
  graph : Graph
  decisionLevel : Nat
  solverConflictNode : Option Node

/-- Point update of the shared assignment store (`atom.value = v`). -/
def setVar (σ : Assign) (name : String) (v : Option Bool) : Assign :=
  fun n => if n = name then v else σ n

/-- `SimpleSatSolver.decide_simple`: pick the first unresolved clause and its
first literal over an unassigned atom, assign that atom `True`, and register
a free decision node at the current level.  `crash` models the attribute
access on `None` when the unresolved clause has no unassigned literal. -/
def decideSimple (st : SolverState) : Res (Bool × SolverState) :=
  match st.clauses.find? (fun c => is_unresolved st.assign c) with
  | none => .ok (false, st)
  | some c =>
    match c.find? (fun l => !(litHasValue st.assign l)) with
    | none => .crash
    | some l =>
      let σ' := setVar st.assign l.name (some true)
      let g' := addDecision st.graph l.name true st.decisionLevel
      .ok (true, { st with assign := σ', graph := g' })

/-- One step of the DLIS count: `pos_count`/`neg_count` dict updates for one
literal (both dicts always share their keys, so they are modelled as one
insertion-ordered association list name ↦ (positive count, negative count)). -/
def dlisBump (acc : List (String × Nat × Nat)) (l : Lit) : List (String × Nat × Nat) :=
  if acc.any (fun e => e.1 = l.name) then
    acc.map (fun e =>
      if e.1 = l.name then
        if l.positive then (e.1, e.2.1 + 1, e.2.2) else (e.1, e.2.1, e.2.2 + 1)
      else e)
  else
    acc ++ [(l.name, if l.positive then (1, 0) else (0, 1))]

/-- The occurrence counts of `decide_dlis`: positive and negative counts of
each unassigned atom over the unresolved clauses, in insertion order. -/
def dlisCounts (σ : Assign) (clauses : List RClause) : List (String × Nat × Nat) :=
  clauses.foldl
    (fun acc c =>
      if is_unresolved σ c then
        (c.filter (fun l => !(litHasValue σ l))).foldl dlisBump acc
      else acc)
    []

/-- `max(dict, key=...)`: the first element attaining the maximal key value
(Python's `max` keeps the earliest maximum). -/
def firstArgmax (f : String × Nat × Nat → Nat) :
    List (String × Nat × Nat) → Option (String × Nat × Nat)
  | [] => none
  | e :: es =>
    match firstArgmax f es with
    | none => some e
    | some m => if f m ≤ f e then some e else some m

/-- The choice made by `decide_dlis`: `none` when no clause is unresolved,
otherwise the chosen variable and value.  `chosen` is `max_pos` when its
positive count strictly exceeds `max_neg`'s negative count, else `max_neg`;
the assigned value is `pos_count[chosen] > neg_count[chosen]`. -/
def dlisChoice (σ : Assign) (clauses : List RClause) :
    Option (Option (String × Bool)) :=
  let unresolvedCount := (clauses.filter (fun c => is_unresolved σ c)).length
  let counts := dlisCounts σ clauses
  if unresolvedCount = 0 then some none
  else
    match firstArgmax (fun e => e.2.1) counts, firstArgmax (fun e => e.2.2) counts with
    | some maxPos, some maxNeg =>
      let chosen := if maxNeg.2.2 < maxPos.2.1 then maxPos else maxNeg
      some (some (chosen.1, decide (chosen.2.2 < chosen.2.1)))
    | _, _ => none

/-- `SimpleSatSolver.decide_dlis`: apply the DLIS choice and register the
decision.  The outer `none` of `dlisChoice` (empty count dicts with an
unresolved clause, where Python's `max` would raise) is a `crash`. -/
def decideDlis (st : SolverState) : Res (Bool × SolverState) :=
  match dlisChoice st.assign st.clauses with
  | none => .crash
  | some none => .ok (false, st)
  | some (some (name, value)) =>
    let σ' := setVar st.assign name (some value)
    let g' := addDecision st.graph name value st.decisionLevel
    .ok (true, { st with assign := σ', graph := g' })

/-- First clause of the list satisfying a predicate, together with its index
(the index is the clause's identity in the database). -/
def findFirstWith (p : RClause → Bool) : List RClause → Nat → Option (Nat × RClause)
  | [], _ => none
  | c :: cs, i => if p c then some (i, c) else findFirstWith p cs (i + 1)

/-- `SimpleSatSolver.bcp`: repeatedly take the first unit clause, assign its
unassigned literal to make it true, record a forced decision, then scan for
a falsified clause; on the first falsified clause record a conflict and
return `False`.  Return `True` when no unit clause remains. -/
def bcpLoop : Nat → SolverState → Res (Bool × SolverState)
  | 0, _ => .fuelOut
  | fuel + 1, st =>
    match findFirstWith (fun c => is_unit st.assign c) st.clauses 0 with
    | none => .ok (true, st)
    | some (i, c) =>
      match c.find? (fun l => !(litHasValue st.assign l)) with
      | none => .crash
      | some l =>
        let σ' := setVar st.assign l.name (some l.positive)
        match addForcedDecision st.graph l.name l.positive i c st.decisionLevel with
        | none => .crash
        | some g' =>
          match findFirstWith (fun cl => is_unsatisfied σ' cl) st.clauses 0 with
          | some (j, cj) =>
            match addConflict g' l.name j cj st.decisionLevel with
            | none => .crash
            | some g'' => .ok (false, { st with assign := σ', graph := g'' })
          | none => bcpLoop fuel { st with assign := σ', graph := g' }

/-- `SimpleSatSolver.resolve_conflict`: no-op without a conflict node; `False`
(UNSAT) at level 0 or when fewer than two decision levels are involved;
otherwise backjump to the second-highest involved level, truncate the graph,
fold resolution over the antecedents into a learned clause, assign `None` to
the solver's own `conflict_node` attribute (not the graph's) and append the
learned clause. -/
def resolveConflict (st : SolverState) : Res (Bool × SolverState) :=
  match st.graph.conflictNode with
  | none => .ok (true, st)
  | some _ =>
    if st.decisionLevel = 0 then .ok (false, st)
    else
      match findFirstUip st.graph with
      | .crash => .crash
      | .fuelOut => .fuelOut
      | .ok none => .crash
      | .ok (some uip) =>
        let info := getConflictInformation st.graph uip
        match info.2 with
        | _ :: newLevel :: _ =>
          let cg := clearDecisions st.graph st.assign newLevel
          let learned := info.1.foldl
            (fun acc i => resolveClauses acc (st.clauses.getD i [])) []
          .ok (true, { st with
            decisionLevel := newLevel
            graph := cg.1
            assign := cg.2
            solverConflictNode := none
            clauses := st.clauses ++ [learned] })
        | _ => .ok (false, st)

/-- The CDCL driver loop of `solve_internal`.  Mode `true` is the top of the
outer `while True` (bump level, decide); mode `false` is the inner
`while not self.bcp()` check. -/
def mainLoop : Nat → Bool → SolverState → Res (Bool × SolverState)
  | 0, _, _ => .fuelOut
  | fuel + 1, true, st =>
    let st1 := { st with decisionLevel := st.decisionLevel + 1 }
    match decideSimple st1 with
    | .crash => .crash
    | .fuelOut => .fuelOut
    | .ok (false, st2) => .ok (true, st2)
    | .ok (true, st2) => mainLoop fuel false st2
  | fuel + 1, false, st =>
    match bcpLoop (fuel + 1) st with
    | .crash => .crash
    | .fuelOut => .fuelOut
    | .ok (true, st2) => mainLoop fuel true st2
    | .ok (false, st2) =>
      match resolveConflict st2 with
      | .crash => .crash
      | .fuelOut => .fuelOut
      | .ok (false, st3) => .ok (false, st3)
      | .ok (true, st3) => mainLoop fuel false st3

/-- `SimpleSatSolver.solve_internal`: fresh implication graph, level 0, an
initial `bcp` whose boolean result is discarded, an initial
`resolve_conflict`, then the main loop. -/
def solveInternal (st : SolverState) (fuel : Nat) : Res (Bool × SolverState) :=
  let st0 := { st with graph := emptyGraph, decisionLevel := 0 }
  match bcpLoop fuel st0 with
  | .crash => .crash
  | .fuelOut => .fuelOut
  | .ok (_, st1) =>
    match resolveConflict st1 with
    | .crash => .crash
    | .fuelOut => .fuelOut
    | .ok (false, st2) => .ok (false, st2)
    | .ok (true, st2) => mainLoop fuel true st2

/-- Insertion-ordered dedup for variable names (the key set of the
`variables` dict built by `canonize_clauses`). -/
def insertDedupStr (l : List String) (x : String) : List String :=
  if x ∈ l then l else l ++ [x]

/-- The key set of the `variables` dict of `canonize_clauses` in insertion
(first-occurrence) order. -/
def canonNames (clauses : List RClause) : List String :=
  clauses.foldl (fun acc c => c.foldl (fun a l => insertDedupStr a l.name) acc) []

/-- The solver state right after `SatSolver.solve` canonised the clauses and
reset every variable to unassigned.  At the runtime level canonicalisation
amounts to keying the shared store by variable name. -/
def initState (clauses : List RClause) : SolverState :=
  { varNames := canonNames clauses
    assign := fun _ => none
    clauses := clauses
    graph := emptyGraph
    decisionLevel := 0
    solverConflictNode := none }

/-- `SatSolver.solve` with the default `decide_simple` heuristic:
canonicalise, reset the variables, and run `solve_internal`. -/
def solve (clauses : List RClause) (fuel : Nat) : Res (Bool × SolverState) :=
  solveInternal (initState clauses) fuel

/-- The verdict of `solve`: `True` = SAT, `False` = UNSAT. -/
def solveVerdict (clauses : List RClause) (fuel : Nat) : Res Bool :=
  match solve clauses fuel with
  | .ok (b, _) => .ok b
  | .crash => .crash
  | .fuelOut => .fuelOut

/-- `SatSolver.get_assignment`: variable name ↦ value over the `variables`
dict, in insertion order. -/
def get_assignment (st : SolverState) : List (String × Option Bool) :=
  st.varNames.map (fun n => (n, st.assign n))

/-- The assignment reported after `solve` (when it terminated normally). -/
def solveAssignment (clauses : List RClause) (fuel : Nat) :
    Option (List (String × Option Bool)) :=
  match solve clauses fuel with
  | .ok (_, st) => some (get_assignment st)
  | _ => none

/-- The satisfaction check of `BruteForceSatSolver.assign_next`:
`all(any(clause.literals) for clause in self.clauses)` under a (total)
assignment. -/
def satisfiesAll (σ : Assign) (clauses : List RClause) : Bool :=
  clauses.all (fun c => c.any (litBool σ))

/-!  Concrete inputs used to settle the claims. -/

/-- The formula `-1 2 0 -1 -2 0`, i.e. `(¬1 ∨ 2) ∧ (¬1 ∨ ¬2)`. -/
def formulaC2 : List RClause :=
  [[⟨"1", false⟩, ⟨"2", true⟩], [⟨"1", false⟩, ⟨"2", false⟩]]

/-- The assignment `1 ↦ false, 2 ↦ true`, which satisfies `formulaC2`. -/
def sigmaC2 : Assign :=
  fun n => if n = "1" then some false else some true

/-- A graph with one free decision on `x` at level 1 and a conflict node at
level 1 produced by the falsified clause `(¬x)` (clause id 0). -/
def graphC4 : Graph :=
  (addConflict (addDecision emptyGraph "x" true 1) "x" 0 [⟨"x", false⟩] 1).getD emptyGraph

/-- The single clause `(1 ∨ 2)`. -/
def formulaC5 : List RClause :=
  [[⟨"1", true⟩, ⟨"2", true⟩]]

/-- The tautological clause `(x ∨ ¬x)`. -/
def tautC6 : RClause :=
  [⟨"x", true⟩, ⟨"x", false⟩]

/-- The formula `(1 ∨ 2) ∧ (¬1 ∨ 3)`: variable 1 has one positive and one
negative occurrence (a DLIS tie). -/
def formulaC8 : List RClause :=
  [[⟨"1", true⟩, ⟨"2", true⟩], [⟨"1", false⟩, ⟨"3", true⟩]]

/-- The everywhere-unassigned store. -/
def sigmaNone : Assign := fun _ => none

/-- C1: the claim "if solve(F) returns SAT then every clause of F has a true
literal under the returned assignment" fails on the code: for `F = [[]]`
(a single empty clause) `solve` returns SAT — `bcp` only scans for falsified
clauses after propagating a unit clause, so the empty clause is never
detected — yet the empty clause has no literal at all, hence no true one
under the reported (empty) assignment. -/
theorem c1_sat_on_falsified_empty_clause :
    solveVerdict [[]] 20 = Res.ok true ∧
      solveAssignment [[]] 20 = some [] ∧
      is_satisfied sigmaNone [] = false := by
  refine ⟨rfl, rfl, rfl⟩

/-- C2: the claim "if solve(F) returns UNSAT then no total assignment
satisfies F" fails on the code: on `(¬1 ∨ 2) ∧ (¬1 ∨ ¬2)` the solver decides
`1 := true`, propagates `2 := true`, and the conflict analysis finds a single
involved decision level, so `resolve_conflict` returns UNSAT — but the total
assignment `1 ↦ false, 2 ↦ true` satisfies both clauses. -/
theorem c2_unsat_on_satisfiable_formula :
    solveVerdict formulaC2 30 = Res.ok false ∧
      satisfiesAll sigmaC2 formulaC2 = true := by
  refine ⟨rfl, rfl⟩

/-- C3: the claim "a formula containing the empty clause yields UNSAT, with
the verdict reached before the first decision because BCP treats the empty
clause as falsified at entry" fails on the code: the empty clause is indeed
falsified at entry (`is_unsatisfied` is true, and it is not a unit clause),
but `bcp` looks for falsified clauses only after propagating some unit
clause, so on `F = [[]]` no conflict is ever produced and `solve` returns
SAT, not UNSAT. -/
theorem c3_empty_clause_formula_not_unsat :
    is_unsatisfied sigmaNone [] = true ∧
      is_unit sigmaNone [] = false ∧
      solveVerdict [[]] 20 ≠ Res.ok false := by
  refine ⟨rfl, rfl, ?_⟩
  intro h
  simp [solveVerdict, solve, solveInternal, initState, bcpLoop, findFirstWith,
    is_unit, resolveConflict, emptyGraph, mainLoop, decideSimple,
    is_unresolved, is_satisfied, is_unsatisfied] at h

/-- C4: after `clear_decisions(0)` on a graph holding a level-1 decision and
a level-1 conflict node, every node is removed, the decision stack is empty
and the conflict variable is reset — but the graph's `conflict_node`
attribute still records the (removed) conflict node, refuting the claim that
no conflict node is recorded after truncation.  (`resolve_conflict` later
assigns `None` to `self.conflict_node` on the *solver*, not on the graph,
despite its own "delete the conflict node" comment.) -/
theorem c4_conflict_node_survives_truncation :
    (clearDecisions graphC4 (fun _ => some true) 0).1.nodes = [] ∧
      (clearDecisions graphC4 (fun _ => some true) 0).1.decisions = [] ∧
      (clearDecisions graphC4 (fun _ => some true) 0).2 "x" = none ∧
      (clearDecisions graphC4 (fun _ => some true) 0).1.conflictNode =
        some ⟨1, .conflict "x" 1⟩ := by
  refine ⟨rfl, rfl, rfl, rfl⟩

/-- C5 counterexample: on the single clause `(1 ∨ 2)` the solver returns SAT
after deciding only variable 1, and `get_assignment` maps variable 2 to the
unassigned value `None` — not to a boolean, refuting totality of the
returned assignment. -/
theorem c5_assignment_not_total :
    solveVerdict formulaC5 20 = Res.ok true ∧
      solveAssignment formulaC5 20 = some [("1", some true), ("2", none)] := by
  refine ⟨rfl, rfl⟩

/-- C6 counterexample: resolving the tautological clause `(x ∨ ¬x)` with the
empty clause (in either operand order) yields the empty clause, because
`Clause.resolve` removes every complementary pair — so the result does not
have the same literal set as the operand. -/
theorem c6_resolve_empty_drops_tautology :
    resolveClauses tautC6 [] = [] ∧
      resolveClauses [] tautC6 = [] ∧
      (⟨"x", true⟩ : Lit) ∈ tautC6 := by
  refine ⟨rfl, rfl, by decide⟩

/-- C8 counterexample: on `(1 ∨ 2) ∧ (¬1 ∨ 3)` with every variable
unassigned, variable 1 has one positive and one negative occurrence (a tie
`p(1) = n(1) = 1`), and `decide_dlis` chooses variable 1 with value `False`
(the code assigns `pos_count[chosen] > neg_count[chosen]`), refuting the
claim that a tie is assigned `True`. -/
theorem c8_dlis_tie_assigns_false :
    dlisCounts sigmaNone formulaC8 = [("1", 1, 1), ("2", 1, 0), ("3", 1, 0)] ∧
      dlisChoice sigmaNone formulaC8 = some (some ("1", false)) := by
  refine ⟨rfl, rfl⟩

/-- C7: for every clause and assignment, exactly one of the four status
predicates (satisfied, unsatisfied, unit, unresolved) holds.  Each status is
by construction a pure function of the clause and the current assignment. -/
theorem c7_status_exactly_one (σ : Assign) (c : RClause) :
    (is_satisfied σ c).toNat + (is_unsatisfied σ c).toNat +
      (is_unit σ c).toNat + (is_unresolved σ c).toNat = 1 := by
  have h1 : is_satisfied σ c = true → is_unsatisfied σ c = false := by
    intro hs
    unfold is_satisfied at hs
    obtain ⟨l, hlmem, hlb⟩ := List.any_eq_true.mp hs
    have hlc : l ∈ c := (List.mem_filter.mp hlmem).1
    have hany : c.any (litBool σ) = true := List.any_eq_true.mpr ⟨l, hlc, hlb⟩
    unfold is_unsatisfied
    by_cases hall : c.all (litHasValue σ)
    · simp [hall, hany]
    · simp [hall]
  have h2 : is_satisfied σ c = true → is_unit σ c = false := by
    intro hs
    unfold is_satisfied at hs
    unfold is_unit
    by_cases hlen :
        ((c.filter (litHasValue σ)).length : Int) = (c.length : Int) - 1
    · simp [hlen, hs]
    · simp [hlen]
  have h3 : is_unsatisfied σ c = true → is_unit σ c = false := by
    intro hu
    unfold is_unsatisfied at hu
    by_cases hall : c.all (litHasValue σ)
    · have hfil : c.filter (litHasValue σ) = c :=
        List.filter_eq_self.mpr (fun a ha => List.all_eq_true.mp hall a ha)
      unfold is_unit
      rw [hfil]
      have hne : ¬ ((c.length : Int) = (c.length : Int) - 1) := by omega
      simp [hne]
    · simp [hall] at hu
  unfold is_unresolved
  cases hs : is_satisfied σ c with
  | true =>
    have hu := h1 hs
    have hn := h2 hs
    simp [hu, hn]
  | false =>
    cases hu : is_unsatisfied σ c with
    | true =>
      have hn := h3 hu
      simp [hn]
    | false =>
      cases hn : is_unit σ c <;> simp

/-- Membership after one `set.add` step on literals. -/
theorem mem_insertDedupLit (l : List Lit) (a x : Lit) :
    x ∈ insertDedupLit l a ↔ x ∈ l ∨ x = a := by
  unfold insertDedupLit
  by_cases h : a ∈ l
  · simp only [if_pos h]
    constructor
    · exact Or.inl
    · rintro (hx | rfl)
      · exact hx
      · exact h
  · simp [if_neg h]

/-- Membership in the folded literal set. -/
theorem mem_foldl_insertDedupLit (l : List Lit) :
    ∀ (init : List Lit) (x : Lit),
      x ∈ l.foldl insertDedupLit init ↔ x ∈ init ∨ x ∈ l := by
  induction l with
  | nil => intro init x; simp
  | cons a l ih =>
    intro init x
    simp only [List.foldl_cons]
    rw [ih, mem_insertDedupLit]
    simp only [List.mem_cons]
    tauto

/-- C6 amended: for a clause with no complementary pair of literals,
resolving with the empty clause (either operand order) yields a clause with
the same set of literals (duplicates collapsed). -/
theorem c6_resolve_empty_amended (c : RClause)
    (hnp : ∀ l ∈ c, ∀ l' ∈ c, l.name = l'.name → l.positive = l'.positive) :
    (∀ x, x ∈ resolveClauses c [] ↔ x ∈ c) ∧
      (∀ x, x ∈ resolveClauses [] c ↔ x ∈ c) := by
  have hsame : resolveClauses [] c = resolveClauses c [] := by
    unfold resolveClauses
    simp
  have key : ∀ x, x ∈ resolveClauses c [] ↔ x ∈ c := by
    intro x
    unfold resolveClauses
    simp only [List.append_nil]
    constructor
    · intro hx
      rcases List.mem_append.mp hx with hx | hx
      · have := (List.mem_filter.mp hx).1
        have := (mem_foldl_insertDedupLit _ [] x).mp this
        simp at this
        exact this.1
      · have := (List.mem_filter.mp hx).1
        have := (mem_foldl_insertDedupLit _ [] x).mp this
        simp at this
        exact this.1
    · intro hx
      cases hxp : x.positive with
      | true =>
        apply List.mem_append.mpr
        left
        apply List.mem_filter.mpr
        refine ⟨(mem_foldl_insertDedupLit _ [] x).mpr (Or.inr ?_), ?_⟩
        · exact List.mem_filter.mpr ⟨hx, by simp [hxp]⟩
        · simp only [Bool.not_eq_true', Bool.eq_false_iff]
          intro hany
          obtain ⟨n, hnmem, hname⟩ := List.any_eq_true.mp hany
          have hn := (mem_foldl_insertDedupLit _ [] n).mp hnmem
          simp at hn
          obtain ⟨hnc, hnneg⟩ := hn
          have := hnp n hnc x hx (of_decide_eq_true hname)
          simp [hxp] at this
          simp [this] at hnneg
      | false =>
        apply List.mem_append.mpr
        right
        apply List.mem_filter.mpr
        refine ⟨(mem_foldl_insertDedupLit _ [] x).mpr (Or.inr ?_), ?_⟩
        · exact List.mem_filter.mpr ⟨hx, by simp [hxp]⟩
        · simp only [Bool.not_eq_true', Bool.eq_false_iff]
          intro hany
          obtain ⟨p, hpmem, hname⟩ := List.any_eq_true.mp hany
          have hp := (mem_foldl_insertDedupLit _ [] p).mp hpmem
          simp at hp
          obtain ⟨hpc, hppos⟩ := hp
          have := hnp p hpc x hx (of_decide_eq_true hname)
          simp [hxp] at this
          simp [this] at hppos
  exact ⟨key, by rw [hsame]; exact key⟩

/-- Witness for the amended C6 claim at the one-literal clause `(x)`. -/
theorem c6_resolve_empty_amended_witness :
    (⟨"x", true⟩ : Lit) ∈ resolveClauses [⟨"x", true⟩] [] :=
  ((c6_resolve_empty_amended [⟨"x", true⟩] (by decide)).1 ⟨"x", true⟩).mpr
    (by decide)

/-- `firstArgmax` is `none` only on the empty list. -/
theorem firstArgmax_eq_none (f : String × Nat × Nat → Nat) :
    ∀ l : List (String × Nat × Nat), firstArgmax f l = none → l = [] := by
  intro l h
  cases l with
  | nil => rfl
  | cons a l =>
    unfold firstArgmax at h
    cases hrec : firstArgmax f l with
    | none => simp [hrec] at h
    | some m => rw [hrec] at h; simp only at h; split at h <;> simp_all

/-- Python's `max(xs, key=f)` returns the first element attaining the
maximum: the returned element belongs to the list and dominates every
element. -/
theorem firstArgmax_spec (f : String × Nat × Nat → Nat) :
    ∀ (l : List (String × Nat × Nat)) (m : String × Nat × Nat),
      firstArgmax f l = some m → m ∈ l ∧ ∀ e ∈ l, f e ≤ f m := by
  intro l
  induction l with
  | nil => intro m h; simp [firstArgmax] at h
  | cons a l ih =>
    intro m h
    unfold firstArgmax at h
    cases hrec : firstArgmax f l with
    | none =>
      have hl : l = [] := firstArgmax_eq_none f l hrec
      subst hl
      rw [hrec] at h
      simp only at h
      cases h
      refine ⟨List.mem_singleton.mpr rfl, ?_⟩
      intro e he
      simp at he
      simp [he]
    | some mr =>
      rw [hrec] at h
      simp only at h
      obtain ⟨hmem, hmax⟩ := ih mr hrec
      by_cases hle : f mr ≤ f a
      · rw [if_pos hle] at h
        cases h
        refine ⟨List.mem_cons_self _ _, ?_⟩
        intro e he
        rcases List.mem_cons.mp he with rfl | he
        · exact le_refl _
        · exact le_trans (hmax e he) hle
      · rw [if_neg hle] at h
        cases h
        refine ⟨List.mem_cons_of_mem _ hmem, ?_⟩
        intro e he
        rcases List.mem_cons.mp he with rfl | he
        · exact le_of_not_le hle
        · exact hmax e he

/-- C8 amended: whenever `decide_dlis` makes a choice, the chosen variable
maximises `max(p(v), n(v))` over the counted variables, and it is assigned
true exactly when `p(v*) > n(v*)` — i.e. *false* on a tie `p(v*) = n(v*)`,
not true as the original claim states. -/
theorem c8_dlis_amended (σ : Assign) (clauses : List RClause)
    (v : String) (val : Bool)
    (h : dlisChoice σ clauses = some (some (v, val))) :
    ∃ pv nv, (v, pv, nv) ∈ dlisCounts σ clauses ∧
      (∀ e ∈ dlisCounts σ clauses, max e.2.1 e.2.2 ≤ max pv nv) ∧
      val = decide (nv < pv) := by
  unfold dlisChoice at h
  simp only at h
  split at h
  · simp at h
  · rcases hpos : firstArgmax (fun e => e.2.1) (dlisCounts σ clauses) with _ | maxPos
    · rw [hpos] at h
      simp at h
    · rcases hneg : firstArgmax (fun e => e.2.2) (dlisCounts σ clauses) with _ | maxNeg
      · rw [hpos, hneg] at h
        simp at h
      · rw [hpos, hneg] at h
        simp only at h
        obtain ⟨hpmem, hpmax⟩ := firstArgmax_spec (fun e => e.2.1) _ _ hpos
        obtain ⟨hnmem, hnmax⟩ := firstArgmax_spec (fun e => e.2.2) _ _ hneg
        obtain ⟨pn, pp, pq⟩ := maxPos
        obtain ⟨nn, np, nq⟩ := maxNeg
        simp only at h hpmax hnmax
        by_cases hcase : nq < pp
        · rw [if_pos hcase] at h
          simp only [Option.some.injEq, Prod.mk.injEq] at h
          refine ⟨pp, pq, ?_, ?_, h.2.symm⟩
          · rw [← h.1]; exact hpmem
          · intro e he
            have h1 := hpmax e he
            have h2 := hnmax e he
            simp only [max_le_iff]
            constructor
            · exact le_max_of_le_left h1
            · exact le_max_of_le_left (le_of_lt (lt_of_le_of_lt h2 hcase))
        · rw [if_neg hcase] at h
          simp only [Option.some.injEq, Prod.mk.injEq] at h
          refine ⟨np, nq, ?_, ?_, h.2.symm⟩
          · rw [← h.1]; exact hnmem
          · intro e he
            have h1 := hpmax e he
            have h2 := hnmax e he
            have h3 : pp ≤ nq := le_of_not_lt hcase
            simp only [max_le_iff]
            constructor
            · exact le_max_of_le_right (le_trans h1 h3)
            · exact le_max_of_le_right h2

/-- Witness for the amended C8 claim at the DLIS-tie formula. -/
theorem c8_dlis_amended_witness :
    ∃ pv nv, ("1", pv, nv) ∈ dlisCounts sigmaNone formulaC8 ∧
      (∀ e ∈ dlisCounts sigmaNone formulaC8, max e.2.1 e.2.2 ≤ max pv nv) ∧
      false = decide (nv < pv) :=
  c8_dlis_amended sigmaNone formulaC8 "1" false rfl

/-- `decide_simple` never touches the `variables` dict. -/
theorem decideSimple_varNames (st : SolverState) (b : Bool) (st' : SolverState)
    (h : decideSimple st = .ok (b, st')) : st'.varNames = st.varNames := by
  unfold decideSimple at h
  split at h
  · cases h; rfl
  · split at h
    · cases h
    · cases h; rfl

/-- `bcp` never touches the `variables` dict. -/
theorem bcpLoop_varNames :
    ∀ (fuel : Nat) (st : SolverState) (b : Bool) (st' : SolverState),
      bcpLoop fuel st = .ok (b, st') → st'.varNames = st.varNames := by
  intro fuel
  induction fuel with
  | zero => intro st b st' h; simp [bcpLoop] at h
  | succ n ih =>
    intro st b st' h
    unfold bcpLoop at h
    split at h
    · cases h; rfl
    · split at h
      · cases h
      · split at h
        · cases h
        · simp only at h
          split at h
          · split at h
            · cases h
            · cases h; rfl
          · rw [ih _ _ _ h]

/-- `resolve_conflict` never touches the `variables` dict. -/
theorem resolveConflict_varNames (st : SolverState) (b : Bool) (st' : SolverState)
    (h : resolveConflict st = .ok (b, st')) : st'.varNames = st.varNames := by
  unfold resolveConflict at h
  split at h
  · cases h; rfl
  · split at h
    · cases h; rfl
    · split at h
      · cases h
      · cases h
      · cases h
      · simp only at h
        split at h
        · cases h; rfl
        · cases h; rfl

/-- The main CDCL loop never touches the `variables` dict. -/
theorem mainLoop_varNames :
    ∀ (fuel : Nat) (mode : Bool) (st : SolverState) (b : Bool) (st' : SolverState),
      mainLoop fuel mode st = .ok (b, st') → st'.varNames = st.varNames := by
  intro fuel
  induction fuel with
  | zero => intro mode st b st' h; simp [mainLoop] at h
  | succ n ih =>
    intro mode st b st' h
    cases mode with
    | true =>
      unfold mainLoop at h
      simp only at h
      split at h
      · cases h
      · cases h
      · rename_i st2 hdec
        cases h
        rw [decideSimple_varNames _ _ _ hdec]
      · rename_i st2 hdec
        have h1 := ih _ _ _ _ h
        have h2 := decideSimple_varNames _ _ _ hdec
        rw [h1, h2]
    | false =>
      unfold mainLoop at h
      split at h
      · cases h
      · cases h
      · rename_i st2 hbcp
        have h1 := ih _ _ _ _ h
        have h2 := bcpLoop_varNames _ _ _ _ hbcp
        rw [h1, h2]
      · rename_i st2 hbcp
        split at h
        · cases h
        · cases h
        · rename_i st3 hres
          cases h
          have h1 := resolveConflict_varNames _ _ _ hres
          have h2 := bcpLoop_varNames _ _ _ _ hbcp
          rw [h1, h2]
        · rename_i st3 hres
          have h1 := ih _ _ _ _ h
          have h2 := resolveConflict_varNames _ _ _ hres
          have h3 := bcpLoop_varNames _ _ _ _ hbcp
          rw [h1, h2, h3]

/-- `solve_internal` never touches the `variables` dict. -/
theorem solveInternal_varNames (st : SolverState) (fuel : Nat) (b : Bool)
    (st' : SolverState) (h : solveInternal st fuel = .ok (b, st')) :
    st'.varNames = st.varNames := by
  unfold solveInternal at h
  simp only at h
  split at h
  · cases h
  · cases h
  · rename_i p hbcp
    split at h
    · cases h
    · cases h
    · rename_i st2 hres
      cases h
      have h1 := resolveConflict_varNames _ _ _ hres
      have h2 := bcpLoop_varNames _ _ _ _ hbcp
      rw [h1, h2]
    · rename_i st2 hres
      have h1 := mainLoop_varNames _ _ _ _ _ h
      have h2 := resolveConflict_varNames _ _ _ hres
      have h3 := bcpLoop_varNames _ _ _ _ hbcp
      rw [h1, h2, h3]

/-- C5 amended: after a SAT verdict, `get_assignment` returns a map whose
keys are exactly the variables that appeared in the input clauses (in first
occurrence order) — but, as the counterexample shows, a variable's value may
remain unassigned, so the map is not in general a total boolean
assignment. -/
theorem c5_assignment_keys (cs : List RClause) (fuel : Nat) (st : SolverState)
    (h : solve cs fuel = .ok (true, st)) :
    (get_assignment st).map Prod.fst = canonNames cs := by
  have hv : st.varNames = canonNames cs :=
    solveInternal_varNames (initState cs) fuel true st h
  have hmap : ∀ (l : List String) (f : String → Option Bool),
      (l.map (fun n => (n, f n))).map Prod.fst = l := by
    intro l f
    induction l with
    | nil => rfl
    | cons a t iht => simp only [List.map_cons]; rw [iht]
  unfold get_assignment
  rw [hmap, hv]

/-- Witness for the amended C5 claim at the single clause `(1 ∨ 2)`. -/
theorem c5_assignment_keys_witness :
    ∃ st, solve formulaC5 20 = Res.ok (true, st) ∧
      (get_assignment st).map Prod.fst = canonNames formulaC5 := by
  have hv : solveVerdict formulaC5 20 = Res.ok true := rfl
  unfold solveVerdict at hv
  cases hsolve : solve formulaC5 20 with
  | ok p =>
    obtain ⟨b, stv⟩ := p
    rw [hsolve] at hv
    simp only at hv
    cases hv
    exact ⟨stv, rfl, c5_assignment_keys formulaC5 20 stv hsolve⟩
  | crash => rw [hsolve] at hv; cases hv
  | fuelOut => rw [hsolve] at hv; cases hv

/-!  Canonicalisation idempotence (C9). -/

/-- The `variables` dict is well formed: every stored atom's name is its
key (`canonize_clauses` always stores `variables[atom.name] = atom`). -/
def VarsWF (vars : List (String × PAtom)) : Prop :=
  ∀ p ∈ vars, p.2.name = p.1

/-- A literal is resolved by a dict when looking its atom's name up returns
exactly its atom. -/
def Resolved (big : List (String × PAtom)) (l : PLiteral) : Prop :=
  lookupVar big l.atom.name = some l.atom

/-- Pointwise sub-dict: every successful lookup agrees with the larger. -/
def SubDict (v b : List (String × PAtom)) : Prop :=
  ∀ n a, lookupVar v n = some a → lookupVar b n = some a

theorem lookupVar_append_some :
    ∀ (vars ex : List (String × PAtom)) (n : String) (a : PAtom),
      lookupVar vars n = some a → lookupVar (vars ++ ex) n = some a := by
  intro vars
  induction vars with
  | nil => intro ex n a h; cases h
  | cons p ps ih =>
    intro ex n a h
    rw [List.cons_append]
    unfold lookupVar at h ⊢
    by_cases hp : p.1 = n
    · rw [if_pos hp] at h ⊢; exact h
    · rw [if_neg hp] at h ⊢; exact ih ex n a h

theorem lookupVar_append_none :
    ∀ (vars ex : List (String × PAtom)) (n : String),
      lookupVar vars n = none → lookupVar (vars ++ ex) n = lookupVar ex n := by
  intro vars
  induction vars with
  | nil => intro ex n _; rfl
  | cons p ps ih =>
    intro ex n h
    rw [List.cons_append]
    have hstep : lookupVar (p :: (ps ++ ex)) n =
        if p.1 = n then some p.2 else lookupVar (ps ++ ex) n := rfl
    have hstep2 : lookupVar (p :: ps) n =
        if p.1 = n then some p.2 else lookupVar ps n := rfl
    rw [hstep2] at h
    rw [hstep]
    by_cases hp : p.1 = n
    · rw [if_pos hp] at h; cases h
    · rw [if_neg hp] at h ⊢
      exact ih ex n h

theorem lookupVar_append_single :
    ∀ (vars : List (String × PAtom)) (k : String) (at1 : PAtom) (n : String)
      (a : PAtom), lookupVar (vars ++ [(k, at1)]) n = some a →
      lookupVar vars n = some a ∨ (lookupVar vars n = none ∧ n = k ∧ a = at1) := by
  intro vars k at1 n a h
  cases hv : lookupVar vars n with
  | some b =>
    left
    have h3 := lookupVar_append_some vars [(k, at1)] n b hv
    exact h3.symm.trans h
  | none =>
    right
    rw [lookupVar_append_none vars [(k, at1)] n hv] at h
    unfold lookupVar at h
    by_cases hk : k = n
    · rw [if_pos hk] at h
      injection h with h4
      exact ⟨rfl, hk.symm, h4.symm⟩
    · rw [if_neg hk] at h; cases h

theorem lookupVar_wf_name :
    ∀ (vars : List (String × PAtom)) (n : String) (a : PAtom),
      VarsWF vars → lookupVar vars n = some a → a.name = n := by
  intro vars
  induction vars with
  | nil => intro n a _ h; cases h
  | cons p ps ih =>
    intro n a hwf h
    unfold lookupVar at h
    by_cases hp : p.1 = n
    · rw [if_pos hp] at h
      cases h
      rw [hwf p (List.mem_cons_self _ _), hp]
    · rw [if_neg hp] at h
      exact ih n a (fun q hq => hwf q (List.mem_cons_of_mem _ hq)) h

/-- First pass of `canonize_clauses` over one clause: the dict stays well
formed and only grows, and every produced literal is resolved by the final
dict. -/
theorem canonLits_spec :
    ∀ (ls : List PLiteral) (vars : List (String × PAtom)), VarsWF vars →
      VarsWF (canonLits vars ls).1 ∧
      (∃ ex, (canonLits vars ls).1 = vars ++ ex) ∧
      ∀ l' ∈ (canonLits vars ls).2, Resolved (canonLits vars ls).1 l' := by
  intro ls
  induction ls with
  | nil => intro vars hwf; exact ⟨hwf, ⟨[], by simp [canonLits]⟩, by simp [canonLits]⟩
  | cons l ls ih =>
    intro vars hwf
    have hstep :
        VarsWF (canonLit vars l).1 ∧
        (∃ ex0, (canonLit vars l).1 = vars ++ ex0) ∧
        Resolved (canonLit vars l).1 (canonLit vars l).2 := by
      unfold canonLit
      cases hl : lookupVar vars l.atom.name with
      | some a =>
        refine ⟨hwf, ⟨[], by simp⟩, ?_⟩
        unfold Resolved
        have hname : a.name = l.atom.name := lookupVar_wf_name vars _ a hwf hl
        simpa [hname] using hl
      | none =>
        refine ⟨?_, ⟨[(l.atom.name, l.atom)], rfl⟩, ?_⟩
        · intro q hq
          rcases List.mem_append.mp hq with hq | hq
          · exact hwf q hq
          · simp at hq
            rw [hq]
        · unfold Resolved
          rw [lookupVar_append_none vars _ _ hl]
          simp [lookupVar]
      
    obtain ⟨hwf1, ⟨ex0, hex0⟩, hres1⟩ := hstep
    obtain ⟨hwf2, ⟨ex1, hex1⟩, hres2⟩ := ih (canonLit vars l).1 hwf1
    unfold canonLits
    refine ⟨hwf2, ⟨ex0 ++ ex1, by rw [hex1, hex0, List.append_assoc]⟩, ?_⟩
    intro l' hl'
    simp only [List.mem_cons] at hl'
    rcases hl' with rfl | hl'
    · unfold Resolved
      rw [hex1]
      exact lookupVar_append_some _ _ _ _ hres1
    · exact hres2 l' hl'

/-- First pass of `canonize_clauses` over the clause list. -/
theorem canonClauses_spec :
    ∀ (cs : List PClause) (vars : List (String × PAtom)), VarsWF vars →
      VarsWF (canonClauses vars cs).1 ∧
      (∃ ex, (canonClauses vars cs).1 = vars ++ ex) ∧
      ∀ c' ∈ (canonClauses vars cs).2, ∀ l' ∈ c',
        Resolved (canonClauses vars cs).1 l' := by
  intro cs
  induction cs with
  | nil => intro vars hwf; exact ⟨hwf, ⟨[], by simp [canonClauses]⟩, by simp [canonClauses]⟩
  | cons c cs ih =>
    intro vars hwf
    obtain ⟨hwf1, ⟨ex0, hex0⟩, hres1⟩ := canonLits_spec c vars hwf
    obtain ⟨hwf2, ⟨ex1, hex1⟩, hres2⟩ := ih (canonLits vars c).1 hwf1
    unfold canonClauses
    refine ⟨hwf2, ⟨ex0 ++ ex1, by rw [hex1, hex0, List.append_assoc]⟩, ?_⟩
    intro c' hc' l' hl'
    simp only [List.mem_cons] at hc'
    rcases hc' with rfl | hc'
    · unfold Resolved
      rw [hex1]
      exact lookupVar_append_some _ _ _ _ (hres1 l' hl')
    · exact hres2 c' hc' l' hl'

/-- Second pass over already-canonical literals is the identity. -/
theorem canonLits_id :
    ∀ (ls : List PLiteral) (vars2 big : List (String × PAtom)),
      SubDict vars2 big → (∀ l ∈ ls, Resolved big l) →
      (canonLits vars2 ls).2 = ls ∧ SubDict (canonLits vars2 ls).1 big := by
  intro ls
  induction ls with
  | nil => intro vars2 big hsub _; exact ⟨rfl, hsub⟩
  | cons l ls ih =>
    intro vars2 big hsub hres
    have hresl : Resolved big l := hres l (List.mem_cons_self _ _)
    have hstep : (canonLit vars2 l).2 = l ∧ SubDict (canonLit vars2 l).1 big := by
      unfold canonLit
      cases hl : lookupVar vars2 l.atom.name with
      | some a =>
        have hbig := hsub _ _ hl
        rw [hresl] at hbig
        cases hbig
        exact ⟨rfl, hsub⟩
      | none =>
        refine ⟨rfl, ?_⟩
        intro n a h
        rcases lookupVar_append_single vars2 _ _ n a h with h1 | ⟨_, rfl, rfl⟩
        · exact hsub n a h1
        · exact hresl
    obtain ⟨hlit, hsub1⟩ := hstep
    obtain ⟨htail, hsub2⟩ := ih (canonLit vars2 l).1 big hsub1
      (fun x hx => hres x (List.mem_cons_of_mem _ hx))
    unfold canonLits
    dsimp only
    rw [hlit, htail]
    exact ⟨rfl, hsub2⟩

/-- Second pass over already-canonical clauses is the identity. -/
theorem canonClauses_id :
    ∀ (cs : List PClause) (vars2 big : List (String × PAtom)),
      SubDict vars2 big → (∀ c ∈ cs, ∀ l ∈ c, Resolved big l) →
      (canonClauses vars2 cs).2 = cs ∧ SubDict (canonClauses vars2 cs).1 big := by
  intro cs
  induction cs with
  | nil => intro vars2 big hsub _; exact ⟨rfl, hsub⟩
  | cons c cs ih =>
    intro vars2 big hsub hres
    obtain ⟨hc, hsub1⟩ := canonLits_id c vars2 big hsub
      (fun l hl => hres c (List.mem_cons_self _ _) l hl)
    obtain ⟨hcs, hsub2⟩ := ih (canonLits vars2 c).1 big hsub1
      (fun x hx l hl => hres x (List.mem_cons_of_mem _ hx) l hl)
    unfold canonClauses
    dsimp only
    rw [hc, hcs]
    exact ⟨rfl, hsub2⟩

/-- C9: canonicalisation is idempotent — applying `canonize_clauses` to its
own output yields a structurally identical clause list (same clauses,
literal order and polarities), and in the output any two literals over the
same variable name carry the same (shared) atom. -/
theorem c9_canonize_idempotent (cs : List PClause) :
    (canonize_clauses (canonize_clauses cs).2).2 = (canonize_clauses cs).2 ∧
      ∀ c ∈ (canonize_clauses cs).2, ∀ l ∈ c,
        ∀ c' ∈ (canonize_clauses cs).2, ∀ l' ∈ c',
          l.atom.name = l'.atom.name → l.atom = l'.atom := by
  have hwf0 : VarsWF ([] : List (String × PAtom)) := by intro p hp; cases hp
  obtain ⟨hwf, _, hres⟩ := canonClauses_spec cs [] hwf0
  have hsub0 : SubDict [] (canonClauses [] cs).1 := by
    intro n a h; cases h
  constructor
  · exact (canonClauses_id (canonClauses [] cs).2 [] (canonClauses [] cs).1 hsub0
      (fun c hc l hl => hres c hc l hl)).1
  · intro c hc l hl c' hc' l' hl' hname
    have h1 := hres c hc l hl
    have h2 := hres c' hc' l' hl'
    unfold Resolved at h1 h2
    rw [hname] at h1
    rw [h1] at h2
    exact Option.some.inj h2

/-!  C10: the decision-node invariant.  `GraphInv` packages the claim's
invariant — every assigned variable has exactly one decision node, no
unassigned variable has one — together with the auxiliary facts needed to
push it through the solver's operations: node ids are strictly increasing in
insertion order and bounded by the counter, and every conflict node is
preceded by a decision node over the same variable at the same level. -/

/-- `n` is a `DecisionNode` for variable `v`. -/
def isDecisionFor (n : Node) (v : String) : Bool :=
  match n.data with
  | .decision w _ _ => w = v
  | .conflict _ _ => false

/-- Number of decision nodes for `v` in the graph. -/
def decCount (g : Graph) (v : String) : Nat :=
  (g.nodes.filter (fun n => isDecisionFor n v)).length

/-- The solve-run invariant of claim C10 (with its auxiliary strengthening). -/
structure GraphInv (st : SolverState) : Prop where
  assignedOne : ∀ v, (st.assign v).isSome = true → decCount st.graph v = 1
  unassignedNone : ∀ v, st.assign v = none → decCount st.graph v = 0
  idsBelow : ∀ n ∈ st.graph.nodes, n.id < st.graph.nextId
  idsSorted : st.graph.nodes.Pairwise (fun a b => a.id < b.id)
  conflictPaired : ∀ n ∈ st.graph.nodes, n.isConflict = true →
    ∃ m ∈ st.graph.nodes, m.isConflict = false ∧ m.varName = n.varName ∧
      m.level = n.level ∧ m.id < n.id

theorem isDecisionFor_varName (n : Node) (v : String)
    (h : isDecisionFor n v = true) : n.varName = v ∧ n.isConflict = false := by
  cases n with
  | mk i d =>
    cases d with
    | decision w val k =>
      unfold isDecisionFor at h
      simp at h
      exact ⟨by simp [Node.varName, h], by simp [Node.isConflict]⟩
    | conflict w k => cases h

theorem isDecisionFor_self (n : Node) (h : n.isConflict = false) :
    isDecisionFor n n.varName = true := by
  cases n with
  | mk i d =>
    cases d with
    | decision w val k => simp [isDecisionFor, Node.varName]
    | conflict w k => simp [Node.isConflict] at h

/-- Decomposition of a successful `find?`: the found element satisfies the
predicate and everything before it refutes it. -/
theorem find?_split {α : Type} (p : α → Bool) :
    ∀ (l : List α) (a : α), l.find? p = some a →
      p a = true ∧ ∃ pre post, l = pre ++ a :: post ∧ ∀ x ∈ pre, p x = false := by
  intro l
  induction l with
  | nil => intro a h; cases h
  | cons b bs ih =>
    intro a h
    cases hb : p b with
    | true =>
      rw [List.find?_cons_of_pos _ hb] at h
      cases h
      exact ⟨hb, [], bs, rfl, by intro x hx; cases hx⟩
    | false =>
      rw [List.find?_cons_of_neg _ (by simp [hb])] at h
      obtain ⟨hpa, pre, post, heq, hpre⟩ := ih a h
      refine ⟨hpa, b :: pre, post, by rw [heq]; rfl, ?_⟩
      intro x hx
      rcases List.mem_cons.mp hx with rfl | hx
      · exact hb
      · exact hpre x hx

theorem length_filter_add_not {α : Type} (p : α → Bool) :
    ∀ l : List α, (l.filter p).length + (l.filter (fun x => !(p x))).length
      = l.length := by
  intro l
  induction l with
  | nil => rfl
  | cons a l ih =>
    cases ha : p a with
    | true =>
      simp [List.filter_cons, ha]
      omega
    | false =>
      simp [List.filter_cons, ha]
      omega

/-- A list whose `p`-filter has length one has a unique `p`-element. -/
theorem filter_length_one_unique {α : Type} (p : α → Bool) (l : List α)
    (h : (l.filter p).length = 1) :
    ∀ x ∈ l, p x = true → ∀ y ∈ l, p y = true → x = y := by
  intro x hx hpx y hy hpy
  obtain ⟨z, hz⟩ := List.length_eq_one.mp h
  have hxz : x ∈ l.filter p := List.mem_filter.mpr ⟨hx, hpx⟩
  have hyz : y ∈ l.filter p := List.mem_filter.mpr ⟨hy, hpy⟩
  rw [hz] at hxz hyz
  simp at hxz hyz
  rw [hxz, hyz]

theorem decCount_one_exists (g : Graph) (v : String)
    (h : decCount g v = 1) : ∃ m ∈ g.nodes, isDecisionFor m v = true := by
  unfold decCount at h
  obtain ⟨z, hz⟩ := List.length_eq_one.mp h
  have : z ∈ g.nodes.filter (fun n => isDecisionFor n v) := by
    rw [hz]; exact List.mem_singleton.mpr rfl
  obtain ⟨hmem, hp⟩ := List.mem_filter.mp this
  exact ⟨z, hmem, hp⟩

/-- Lookup lemma of C10: under the invariant, the `next(filter(...))` lookup
of `add_forced_decision` / `add_conflict` finds a node for every assigned
variable, and the first match is a decision node. -/
theorem findNodeFor_decision (st : SolverState) (v : String)
    (hinv : GraphInv st) (hv : (st.assign v).isSome = true) :
    ∃ m, findNodeFor st.graph v = some m ∧ m.isConflict = false := by
  have hcount := hinv.assignedOne v hv
  obtain ⟨m, hmmem, hmdec⟩ := decCount_one_exists st.graph v hcount
  obtain ⟨hmvar, hmnc⟩ := isDecisionFor_varName m v hmdec
  have hfind : (st.graph.nodes.find? (fun n => n.varName = v)).isSome := by
    rw [List.find?_isSome]
    exact ⟨m, hmmem, by simp [hmvar]⟩
  obtain ⟨n0, hn0⟩ := Option.isSome_iff_exists.mp hfind
  refine ⟨n0, hn0, ?_⟩
  obtain ⟨hpn0, pre, post, hsplit, hpre⟩ := find?_split _ _ _ hn0
  by_contra hconf
  have hconf' : n0.isConflict = true := by
    cases hc : n0.isConflict
    · exact absurd hc hconf
    · rfl
  have hn0mem : n0 ∈ st.graph.nodes := by
    rw [hsplit]
    exact List.mem_append_right _ (List.mem_cons_self _ _)
  obtain ⟨m', hm'mem, hm'nc, hm'var, _, hm'id⟩ :=
    hinv.conflictPaired n0 hn0mem hconf'
  have hn0var : n0.varName = v := by simpa using hpn0
  -- m' is a decision node over v occurring before n0, so find? could not
  -- have skipped it
  rw [hsplit] at hm'mem
  rcases List.mem_append.mp hm'mem with hm'pre | hm'post
  · have hx := hpre m' hm'pre
    rw [hm'var, hn0var] at hx
    simp at hx
  · rcases List.mem_cons.mp hm'post with rfl | hm'post
    · rw [hm'nc] at hconf'
      cases hconf'
    · -- nodes after n0 have larger ids
      have hsorted := hinv.idsSorted
      rw [hsplit] at hsorted
      have hlt : n0.id < m'.id := by
        have h1 := (List.pairwise_append.mp hsorted).2.1
        exact (List.pairwise_cons.mp h1).1 m' hm'post
      omega

theorem addEdge_fields (g : Graph) (u v : Node) (ant : Nat) :
    (addEdge g u v ant).nodes = g.nodes ∧
      (addEdge g u v ant).nextId = g.nextId ∧
      (addEdge g u v ant).decisions = g.decisions ∧
      (addEdge g u v ant).conflictNode = g.conflictNode := by
  unfold addEdge
  split <;> exact ⟨rfl, rfl, rfl, rfl⟩

theorem decCount_nodes_eq (g g' : Graph) (h : g'.nodes = g.nodes) (v : String) :
    decCount g' v = decCount g v := by
  unfold decCount
  rw [h]

theorem decCount_append_node (g g' : Graph) (n : Node)
    (h : g'.nodes = g.nodes ++ [n]) (v : String) :
    decCount g' v = decCount g v + (if isDecisionFor n v then 1 else 0) := by
  unfold decCount
  rw [h, List.filter_append, List.length_append]
  congr 1
  cases hd : isDecisionFor n v <;> simp [List.filter, hd]

theorem findNodeFor_isSome_of (g : Graph) (v : String)
    (h : ∃ m ∈ g.nodes, m.varName = v) : ∃ m', findNodeFor g v = some m' := by
  obtain ⟨m, hm, hv⟩ := h
  have : (g.nodes.find? (fun n => n.varName = v)).isSome := by
    rw [List.find?_isSome]
    exact ⟨m, hm, by simp [hv]⟩
  exact Option.isSome_iff_exists.mp this

theorem edgeFold_none (node : Node) (antId : Nat) :
    ∀ lits : List Lit,
      lits.foldl (fun acc l =>
        match acc with
        | none => none
        | some g2 =>
          match findNodeFor g2 l.name with
          | none => none
          | some prev => some (addEdge g2 prev node antId)) none = none := by
  intro lits
  induction lits with
  | nil => rfl
  | cons l ls ih => exact ih

theorem edgeFold_fields (node : Node) (antId : Nat) :
    ∀ (lits : List Lit) (g0 g' : Graph),
      lits.foldl (fun acc l =>
        match acc with
        | none => none
        | some g2 =>
          match findNodeFor g2 l.name with
          | none => none
          | some prev => some (addEdge g2 prev node antId)) (some g0) = some g'
      → g'.nodes = g0.nodes ∧ g'.nextId = g0.nextId ∧
        g'.decisions = g0.decisions ∧ g'.conflictNode = g0.conflictNode := by
  intro lits
  induction lits with
  | nil =>
    intro g0 g' h
    cases h
    exact ⟨rfl, rfl, rfl, rfl⟩
  | cons l ls ih =>
    intro g0 g' h
    rw [List.foldl_cons] at h
    simp only at h
    cases hf : findNodeFor g0 l.name with
    | none =>
      rw [hf] at h
      simp only at h
      rw [edgeFold_none node antId ls] at h
      cases h
    | some prev =>
      rw [hf] at h
      simp only at h
      obtain ⟨h1, h2, h3, h4⟩ := ih (addEdge g0 prev node antId) g' h
      obtain ⟨e1, e2, e3, e4⟩ := addEdge_fields g0 prev node antId
      exact ⟨h1.trans e1, h2.trans e2, h3.trans e3, h4.trans e4⟩

theorem edgeFold_some_of (node : Node) (antId : Nat) :
    ∀ (lits : List Lit) (g0 : Graph),
      (∀ l ∈ lits, ∃ m ∈ g0.nodes, m.varName = l.name) →
      ∃ g', lits.foldl (fun acc l =>
        match acc with
        | none => none
        | some g2 =>
          match findNodeFor g2 l.name with
          | none => none
          | some prev => some (addEdge g2 prev node antId)) (some g0) = some g' := by
  intro lits
  induction lits with
  | nil => intro g0 _; exact ⟨g0, rfl⟩
  | cons l ls ih =>
    intro g0 hlits
    obtain ⟨prev, hprev⟩ :=
      findNodeFor_isSome_of g0 l.name (hlits l (List.mem_cons_self _ _))
    rw [List.foldl_cons]
    simp only
    rw [hprev]
    simp only
    apply ih
    intro x hx
    obtain ⟨m, hm, hv⟩ := hlits x (List.mem_cons_of_mem _ hx)
    refine ⟨m, ?_, hv⟩
    rw [(addEdge_fields g0 prev node antId).1]
    exact hm

theorem addForcedDecision_spec (g : Graph) (name : String) (value : Bool)
    (antId : Nat) (antLits : RClause) (level : Nat)
    (hlits : ∀ l ∈ antLits, l.name ≠ name → ∃ m ∈ g.nodes, m.varName = l.name) :
    ∃ g', addForcedDecision g name value antId antLits level = some g' ∧
      g'.nodes = g.nodes ++ [⟨g.nextId, .decision name value level⟩] ∧
      g'.nextId = g.nextId + 1 ∧ g'.decisions = g.decisions ∧
      g'.conflictNode = g.conflictNode := by
  unfold addForcedDecision
  simp only
  set node : Node := ⟨g.nextId, .decision name value level⟩ with hnode
  set g1 : Graph := { g with nodes := g.nodes ++ [node], nextId := g.nextId + 1 }
    with hg1
  have hall : ∀ l ∈ antLits.filter (fun l => l.name ≠ name),
      ∃ m ∈ g1.nodes, m.varName = l.name := by
    intro l hl
    obtain ⟨hmem, hne⟩ := List.mem_filter.mp hl
    obtain ⟨m, hm, hv⟩ := hlits l hmem (by simpa using hne)
    exact ⟨m, by rw [hg1]; exact List.mem_append_left _ hm, hv⟩
  obtain ⟨g', hg'⟩ := edgeFold_some_of node antId _ g1 hall
  obtain ⟨h1, h2, h3, h4⟩ := edgeFold_fields node antId _ g1 g' hg'
  exact ⟨g', hg', h1, h2, h3, h4⟩

theorem addConflict_spec (g : Graph) (name : String) (antId : Nat)
    (clauseLits : RClause) (level : Nat)
    (hlits : ∀ l ∈ clauseLits, ∃ m ∈ g.nodes, m.varName = l.name) :
    ∃ g', addConflict g name antId clauseLits level = some g' ∧
      g'.nodes = g.nodes ++ [⟨g.nextId, .conflict name level⟩] ∧
      g'.nextId = g.nextId + 1 ∧ g'.decisions = g.decisions ∧
      g'.conflictNode = some ⟨g.nextId, .conflict name level⟩ := by
  unfold addConflict
  simp only
  set node : Node := ⟨g.nextId, .conflict name level⟩ with hnode
  set g1 : Graph := { g with nodes := g.nodes ++ [node], nextId := g.nextId + 1, conflictNode := some node } with hg1
  have hall : ∀ l ∈ clauseLits, ∃ m ∈ g1.nodes, m.varName = l.name := by
    intro l hl
    obtain ⟨m, hm, hv⟩ := hlits l hl
    exact ⟨m, by rw [hg1]; exact List.mem_append_left _ hm, hv⟩
  obtain ⟨g', hg'⟩ := edgeFold_some_of node antId _ g1 hall
  obtain ⟨h1, h2, h3, h4⟩ := edgeFold_fields node antId _ g1 g' hg'
  exact ⟨g', hg', h1, h2, h3, h4⟩

theorem setVar_same (σ : Assign) (name : String) (x : Option Bool) :
    setVar σ name x name = x := by
  simp [setVar]

theorem setVar_other (σ : Assign) (name v : String) (x : Option Bool)
    (h : v ≠ name) : setVar σ name x v = σ v := by
  simp [setVar, h]

theorem isDecisionFor_decision (i : Nat) (name : String) (val : Bool)
    (lvl : Nat) (v : String) :
    isDecisionFor ⟨i, .decision name val lvl⟩ v = decide (name = v) := by
  simp [isDecisionFor]

theorem isDecisionFor_conflict (i : Nat) (name : String) (lvl : Nat)
    (v : String) : isDecisionFor ⟨i, .conflict name lvl⟩ v = false := rfl

/-- Appending a decision node for a freshly assigned variable preserves the
invariant (shared by `decide` and the forced decisions of `bcp`). -/
theorem GraphInv_add_decision (st : SolverState) (name : String)
    (storedVal : Bool) (lvl : Nat) (b : Bool) (g' : Graph)
    (hinv : GraphInv st) (hun : st.assign name = none)
    (hnodes : g'.nodes =
      st.graph.nodes ++ [⟨st.graph.nextId, .decision name storedVal lvl⟩])
    (hnext : g'.nextId = st.graph.nextId + 1) :
    GraphInv { st with assign := setVar st.assign name (some b), graph := g' } := by
  have hcnt : ∀ v, decCount g' v =
      decCount st.graph v + (if name = v then 1 else 0) := by
    intro v
    rw [decCount_append_node st.graph g' _ hnodes v, isDecisionFor_decision]
    by_cases hv : name = v <;> simp [hv]
  constructor
  · intro v hv
    have hv' : (setVar st.assign name (some b) v).isSome = true := hv
    show decCount g' v = 1
    by_cases hveq : v = name
    · subst hveq
      rw [hcnt v, hinv.unassignedNone v hun]
      simp
    · rw [setVar_other _ _ _ _ hveq] at hv'
      rw [hcnt v, hinv.assignedOne v hv']
      have hne : ¬name = v := fun hx => hveq hx.symm
      simp [hne]
  · intro v hv
    have hv' : setVar st.assign name (some b) v = none := hv
    show decCount g' v = 0
    by_cases hveq : v = name
    · subst hveq
      rw [setVar_same] at hv'
      cases hv'
    · rw [setVar_other _ _ _ _ hveq] at hv'
      rw [hcnt v, hinv.unassignedNone v hv']
      have hne : ¬name = v := fun hx => hveq hx.symm
      simp [hne]
  · intro n hn
    have hn' : n ∈ g'.nodes := hn
    show n.id < g'.nextId
    rw [hnodes] at hn'
    rw [hnext]
    rcases List.mem_append.mp hn' with hn' | hn'
    · have := hinv.idsBelow n hn'
      omega
    · simp at hn'
      rw [hn']
      show st.graph.nextId < st.graph.nextId + 1
      omega
  · show g'.nodes.Pairwise (fun a b => a.id < b.id)
    rw [hnodes]
    apply List.pairwise_append.mpr
    refine ⟨hinv.idsSorted, List.pairwise_singleton _ _, ?_⟩
    intro a ha b hb
    simp at hb
    rw [hb]
    exact hinv.idsBelow a ha
  · intro n hn hconf
    have hn' : n ∈ g'.nodes := hn
    rw [hnodes] at hn'
    rcases List.mem_append.mp hn' with hn' | hn'
    · obtain ⟨m, hm, h1, h2, h3, h4⟩ := hinv.conflictPaired n hn' hconf
      exact ⟨m, by show m ∈ g'.nodes; rw [hnodes]; exact List.mem_append_left _ hm,
        h1, h2, h3, h4⟩
    · simp at hn'
      rw [hn'] at hconf
      simp [Node.isConflict] at hconf

/-- Appending a conflict node whose variable has a decision node at the same
level preserves the invariant (the `add_conflict` step of `bcp`). -/
theorem GraphInv_add_conflict (st : SolverState) (name : String) (lvl : Nat)
    (g'' : Graph) (hinv : GraphInv st)
    (hnodes : g''.nodes =
      st.graph.nodes ++ [⟨st.graph.nextId, .conflict name lvl⟩])
    (hnext : g''.nextId = st.graph.nextId + 1)
    (hpair : ∃ m ∈ st.graph.nodes,
      m.isConflict = false ∧ m.varName = name ∧ m.level = lvl) :
    GraphInv { st with graph := g'' } := by
  have hcnt : ∀ v, decCount g'' v = decCount st.graph v := by
    intro v
    rw [decCount_append_node st.graph g'' _ hnodes v, isDecisionFor_conflict]
    simp
  constructor
  · intro v hv
    show decCount g'' v = 1
    rw [hcnt v]
    exact hinv.assignedOne v hv
  · intro v hv
    show decCount g'' v = 0
    rw [hcnt v]
    exact hinv.unassignedNone v hv
  · intro n hn
    have hn' : n ∈ g''.nodes := hn
    show n.id < g''.nextId
    rw [hnodes] at hn'
    rw [hnext]
    rcases List.mem_append.mp hn' with hn' | hn'
    · have := hinv.idsBelow n hn'
      omega
    · simp at hn'
      rw [hn']
      show st.graph.nextId < st.graph.nextId + 1
      omega
  · show g''.nodes.Pairwise (fun a b => a.id < b.id)
    rw [hnodes]
    apply List.pairwise_append.mpr
    refine ⟨hinv.idsSorted, List.pairwise_singleton _ _, ?_⟩
    intro a ha b hb
    simp at hb
    rw [hb]
    exact hinv.idsBelow a ha
  · intro n hn hconf
    have hn' : n ∈ g''.nodes := hn
    rw [hnodes] at hn'
    rcases List.mem_append.mp hn' with hn' | hn'
    · obtain ⟨m, hm, h1, h2, h3, h4⟩ := hinv.conflictPaired n hn' hconf
      exact ⟨m, by show m ∈ g''.nodes; rw [hnodes]; exact List.mem_append_left _ hm,
        h1, h2, h3, h4⟩
    · simp at hn'
      obtain ⟨m, hm, h1, h2, h3⟩ := hpair
      refine ⟨m, by show m ∈ g''.nodes; rw [hnodes]; exact List.mem_append_left _ hm,
        h1, ?_, ?_, ?_⟩
      · rw [hn']; simpa [Node.varName] using h2
      · rw [hn']; simpa [Node.level] using h3
      · rw [hn']
        have := hinv.idsBelow m hm
        simpa using this

/-- `decide_simple` preserves the invariant. -/
theorem decideSimple_inv (st : SolverState) (b : Bool) (st' : SolverState)
    (hinv : GraphInv st) (h : decideSimple st = .ok (b, st')) : GraphInv st' := by
  unfold decideSimple at h
  split at h
  · cases h; exact hinv
  · split at h
    · cases h
    · rename_i c hc l hl
      cases h
      apply GraphInv_add_decision st l.name true st.decisionLevel true _ hinv
      · have hp := List.find?_some hl
        simp [litHasValue] at hp
        exact hp
      · rfl
      · rfl

theorem findFirstWith_spec (p : RClause → Bool) :
    ∀ (l : List RClause) (k i : Nat) (c : RClause),
      findFirstWith p l k = some (i, c) → p c = true := by
  intro l
  induction l with
  | nil => intro k i c h; cases h
  | cons c0 cs ih =>
    intro k i c h
    unfold findFirstWith at h
    by_cases hp : p c0 = true
    · rw [if_pos hp] at h
      cases h
      exact hp
    · rw [if_neg hp] at h
      exact ih (k + 1) i c h

/-- `bcp` under the invariant: it never raises (the lookups of
`add_forced_decision` and `add_conflict` always succeed) and it preserves
the invariant. -/
theorem bcpLoop_inv :
    ∀ (fuel : Nat) (st : SolverState), GraphInv st →
      bcpLoop fuel st ≠ .crash ∧
      (∀ b st', bcpLoop fuel st = .ok (b, st') → GraphInv st') := by
  intro fuel
  induction fuel with
  | zero =>
    intro st _
    constructor
    · intro h; simp [bcpLoop] at h
    · intro b st' h; simp [bcpLoop] at h
  | succ n ih =>
    intro st hinv
    cases hunit : findFirstWith (fun c => is_unit st.assign c) st.clauses 0 with
    | none =>
      constructor
      · intro h
        unfold bcpLoop at h
        rw [hunit] at h
        cases h
      · intro b st' h
        unfold bcpLoop at h
        rw [hunit] at h
        cases h
        exact hinv
    | some p =>
      obtain ⟨i, c⟩ := p
      have hunitc : is_unit st.assign c = true :=
        findFirstWith_spec _ _ _ _ _ hunit
      unfold is_unit at hunitc
      simp only at hunitc
      split at hunitc
      case isFalse => cases hunitc
      case isTrue hcond =>
      have hlenN : (c.filter (litHasValue st.assign)).length + 1 = c.length := by
        omega
      have hnotlen :
          (c.filter (fun x => !(litHasValue st.assign x))).length = 1 := by
        have := length_filter_add_not (litHasValue st.assign) c
        omega
      have hexists : ∃ x ∈ c, (!(litHasValue st.assign x)) = true := by
        obtain ⟨z, hz⟩ := List.length_eq_one.mp hnotlen
        have hzmem : z ∈ c.filter (fun x => !(litHasValue st.assign x)) := by
          rw [hz]; exact List.mem_singleton.mpr rfl
        obtain ⟨hzc, hzp⟩ := List.mem_filter.mp hzmem
        exact ⟨z, hzc, hzp⟩
      have hfindSome :
          (c.find? (fun l => !(litHasValue st.assign l))).isSome := by
        rw [List.find?_isSome]
        exact hexists
      obtain ⟨l, hfind⟩ := Option.isSome_iff_exists.mp hfindSome
      have hun : st.assign l.name = none := by
        have hp := List.find?_some hfind
        simp [litHasValue] at hp
        exact hp
      have hlmem : l ∈ c := List.mem_of_find?_eq_some hfind
      have hothers : ∀ l' ∈ c, l'.name ≠ l.name →
          (st.assign l'.name).isSome = true := by
        intro l' hl' hne
        by_contra hnone
        have hnone' : st.assign l'.name = none := by
          cases hx : st.assign l'.name
          · rfl
          · rw [hx] at hnone; simp at hnone
        have hl'p : (!(litHasValue st.assign l')) = true := by
          simp [litHasValue, hnone']
        have hlp : (!(litHasValue st.assign l)) = true := by
          simp [litHasValue, hun]
        have := filter_length_one_unique _ _ hnotlen l' hl' hl'p l hlmem hlp
        exact hne (by rw [this])
      have hlits : ∀ l' ∈ c, l'.name ≠ l.name →
          ∃ m ∈ st.graph.nodes, m.varName = l'.name := by
        intro l' hl' hne
        have hs := hothers l' hl' hne
        have hcount := hinv.assignedOne l'.name hs
        obtain ⟨m, hm, hmdec⟩ := decCount_one_exists st.graph l'.name hcount
        exact ⟨m, hm, (isDecisionFor_varName m l'.name hmdec).1⟩
      obtain ⟨g', hsome, hnodes, hnext, hdecs, hcN⟩ :=
        addForcedDecision_spec st.graph l.name l.positive i c st.decisionLevel
          hlits
      have hinv1 : GraphInv { st with
          assign := setVar st.assign l.name (some l.positive), graph := g' } :=
        GraphInv_add_decision st l.name l.positive st.decisionLevel l.positive
          g' hinv hun hnodes hnext
      -- facts about a possible conflict scan
      have hconfstep : ∀ j cj,
          findFirstWith (fun cl =>
            is_unsatisfied (setVar st.assign l.name (some l.positive)) cl)
            st.clauses 0 = some (j, cj) →
          ∃ g'', addConflict g' l.name j cj st.decisionLevel = some g'' ∧
            GraphInv { st with
              assign := setVar st.assign l.name (some l.positive),
              graph := g'' } := by
        intro j cj hscan
        have hunsat := findFirstWith_spec _ _ _ _ _ hscan
        unfold is_unsatisfied at hunsat
        split at hunsat
        case isFalse => cases hunsat
        case isTrue hall =>
        have hlits2 : ∀ x ∈ cj, ∃ m ∈ g'.nodes, m.varName = x.name := by
          intro x hx
          have hxassigned :
              ((setVar st.assign l.name (some l.positive)) x.name).isSome
                = true := by
            have := List.all_eq_true.mp hall x hx
            simpa [litHasValue] using this
          have hcount := hinv1.assignedOne x.name hxassigned
          have hcount' : decCount g' x.name = 1 := hcount
          obtain ⟨m, hm, hmdec⟩ := decCount_one_exists g' x.name hcount'
          exact ⟨m, hm, (isDecisionFor_varName m x.name hmdec).1⟩
        obtain ⟨g'', hsome2, hnodes2, hnext2, _, hcN2⟩ :=
          addConflict_spec g' l.name j cj st.decisionLevel hlits2
        refine ⟨g'', hsome2, ?_⟩
        have hpair : ∃ m ∈ g'.nodes, m.isConflict = false ∧
            m.varName = l.name ∧ m.level = st.decisionLevel := by
          refine ⟨⟨st.graph.nextId, .decision l.name l.positive
            st.decisionLevel⟩, ?_, rfl, rfl, rfl⟩
          rw [hnodes]
          exact List.mem_append_right _ (List.mem_singleton.mpr rfl)
        exact GraphInv_add_conflict _ l.name st.decisionLevel g'' hinv1
          hnodes2 hnext2 hpair
      constructor
      · intro h
        unfold bcpLoop at h
        rw [hunit] at h
        simp only at h
        rw [hfind] at h
        simp only at h
        rw [hsome] at h
        simp only at h
        cases hscan : findFirstWith (fun cl =>
            is_unsatisfied (setVar st.assign l.name (some l.positive)) cl)
            st.clauses 0 with
        | none =>
          rw [hscan] at h
          simp only at h
          exact (ih _ hinv1).1 h
        | some q =>
          obtain ⟨j, cj⟩ := q
          obtain ⟨g'', hsome2, _⟩ := hconfstep j cj hscan
          rw [hscan] at h
          simp only at h
          rw [hsome2] at h
          simp only at h
          cases h
      · intro b st' h
        unfold bcpLoop at h
        rw [hunit] at h
        simp only at h
        rw [hfind] at h
        simp only at h
        rw [hsome] at h
        simp only at h
        cases hscan : findFirstWith (fun cl =>
            is_unsatisfied (setVar st.assign l.name (some l.positive)) cl)
            st.clauses 0 with
        | none =>
          rw [hscan] at h
          simp only at h
          exact (ih _ hinv1).2 b st' h
        | some q =>
          obtain ⟨j, cj⟩ := q
          obtain ⟨g'', hsome2, hinv2⟩ := hconfstep j cj hscan
          rw [hscan] at h
          simp only at h
          rw [hsome2] at h
          simp only at h
          cases h
          exact hinv2

theorem filter_filter_and {α : Type} (p q : α → Bool) :
    ∀ l : List α, (l.filter q).filter p = l.filter (fun a => p a && q a) := by
  intro l
  induction l with
  | nil => rfl
  | cons a t iht =>
    cases hq : q a <;> cases hp : p a <;>
      simp [List.filter_cons, hq, hp, iht]

theorem filter_and_of_imp {α : Type} (p q : α → Bool) :
    ∀ l : List α, (∀ x ∈ l, p x = true → q x = true) →
      l.filter (fun a => p a && q a) = l.filter p := by
  intro l
  induction l with
  | nil => intro _; rfl
  | cons a t iht =>
    intro h
    have ht := iht (fun x hx => h x (List.mem_cons_of_mem _ hx))
    cases hp : p a with
    | true =>
      have hq := h a (List.mem_cons_self _ _) hp
      simp [List.filter_cons, hp, hq, ht]
    | false =>
      simp [List.filter_cons, hp, ht]

/-- `GraphInv` only depends on the assignment and the graph. -/
theorem GraphInv_of_fields (st st' : SolverState)
    (h : GraphInv st) (ha : st'.assign = st.assign)
    (hg : st'.graph = st.graph) : GraphInv st' := by
  constructor
  · intro v hv
    rw [ha] at hv
    show decCount st'.graph v = 1
    rw [hg]
    exact h.assignedOne v hv
  · intro v hv
    rw [ha] at hv
    show decCount st'.graph v = 0
    rw [hg]
    exact h.unassignedNone v hv
  · rw [hg]; exact h.idsBelow
  · rw [hg]; exact h.idsSorted
  · rw [hg]; exact h.conflictPaired

/-- `clear_decisions` preserves the invariant: removed decision nodes have
their variables reset, kept variables keep their unique decision node, and
the conflict pairing survives because a conflict node and its decision node
sit at the same level. -/
theorem clearDecisions_inv (st : SolverState) (L : Nat) (hinv : GraphInv st) :
    GraphInv { st with graph := (clearDecisions st.graph st.assign L).1,
                       assign := (clearDecisions st.graph st.assign L).2 } := by
  have h1 : (clearDecisions st.graph st.assign L).1 =
      { st.graph with
        nodes := st.graph.nodes.filter (fun n => !(decide (L < n.level))),
        edges := st.graph.edges.filter
          (fun e => !(decide (L < e.src.level)) && !(decide (L < e.dst.level))),
        decisions := st.graph.decisions.take L } := rfl
  have h2 : (clearDecisions st.graph st.assign L).2 = fun v =>
      if (st.graph.nodes.filter (fun n => decide (L < n.level))).any
          (fun n => n.varName = v) then none else st.assign v := rfl
  have hkeep : ∀ v, (st.graph.nodes.filter (fun n => decide (L < n.level))).any
      (fun n => n.varName = v) = false →
      ∀ x ∈ st.graph.nodes, isDecisionFor x v = true →
        (!(decide (L < x.level))) = true := by
    intro v hany x hx hdec
    by_contra hkx
    have hxlvl : decide (L < x.level) = true := by
      cases hl : decide (L < x.level)
      · rw [hl] at hkx; simp at hkx
      · rfl
    have hxrem : x ∈ st.graph.nodes.filter (fun n => decide (L < n.level)) :=
      List.mem_filter.mpr ⟨hx, hxlvl⟩
    have : (st.graph.nodes.filter (fun n => decide (L < n.level))).any
        (fun n => n.varName = v) = true := by
      rw [List.any_eq_true]
      exact ⟨x, hxrem, by simp [(isDecisionFor_varName x v hdec).1]⟩
    rw [this] at hany
    cases hany
  constructor
  · intro v hv
    have hv' : ((clearDecisions st.graph st.assign L).2 v).isSome = true := hv
    rw [h2] at hv'
    simp only at hv'
    show decCount (clearDecisions st.graph st.assign L).1 v = 1
    rw [h1]
    cases hany : (st.graph.nodes.filter (fun n => decide (L < n.level))).any
        (fun n => n.varName = v) with
    | true => rw [hany] at hv'; simp at hv'
    | false =>
      rw [hany] at hv'
      have hv2 : (st.assign v).isSome = true := by simpa using hv'
      have hcount := hinv.assignedOne v hv2
      unfold decCount at hcount ⊢
      simp only
      rw [filter_filter_and]
      rw [filter_and_of_imp _ _ _ (hkeep v hany)]
      exact hcount
  · intro v hv
    have hv' : (clearDecisions st.graph st.assign L).2 v = none := hv
    rw [h2] at hv'
    simp only at hv'
    show decCount (clearDecisions st.graph st.assign L).1 v = 0
    rw [h1]
    unfold decCount
    simp only
    rw [filter_filter_and]
    cases hany : (st.graph.nodes.filter (fun n => decide (L < n.level))).any
        (fun n => n.varName = v) with
    | false =>
      rw [hany] at hv'
      have hv2 : st.assign v = none := by simpa using hv'
      have hcount := hinv.unassignedNone v hv2
      unfold decCount at hcount
      have hnil : st.graph.nodes.filter (fun n => isDecisionFor n v) = [] :=
        List.length_eq_zero.mp hcount
      have hnone : ∀ x ∈ st.graph.nodes, ¬ (isDecisionFor x v = true) := by
        intro x hx hdec
        have : x ∈ st.graph.nodes.filter (fun n => isDecisionFor n v) :=
          List.mem_filter.mpr ⟨hx, hdec⟩
        rw [hnil] at this
        cases this
      rw [List.length_eq_zero]
      rw [List.filter_eq_nil_iff]
      intro x hx
      simp only [Bool.and_eq_true, not_and]
      intro hdec _
      exact hnone x hx hdec
    | true =>
      obtain ⟨r, hrrem, hrv⟩ := List.any_eq_true.mp hany
      obtain ⟨hrnodes, hrlvl⟩ := List.mem_filter.mp hrrem
      have hrv' : r.varName = v := by simpa using hrv
      rw [List.length_eq_zero, List.filter_eq_nil_iff]
      intro x hx
      simp only [Bool.and_eq_true, not_and]
      intro hdec hkx
      -- x is a kept decision node for v although some node for v was removed
      cases hsv : st.assign v with
      | none =>
        have hcount := hinv.unassignedNone v hsv
        unfold decCount at hcount
        have hnil : st.graph.nodes.filter (fun n => isDecisionFor n v) = [] :=
          List.length_eq_zero.mp hcount
        have : x ∈ st.graph.nodes.filter (fun n => isDecisionFor n v) :=
          List.mem_filter.mpr ⟨hx, hdec⟩
        rw [hnil] at this
        cases this
      | some bv =>
        have hcount := hinv.assignedOne v (by rw [hsv]; rfl)
        unfold decCount at hcount
        cases hrc : r.isConflict with
        | false =>
          have hrdec : isDecisionFor r v = true := by
            rw [← hrv']
            exact isDecisionFor_self r hrc
          have hxr := filter_length_one_unique _ _ hcount x hx hdec r hrnodes hrdec
          rw [hxr] at hkx
          rw [hrlvl] at hkx
          cases hkx
        | true =>
          obtain ⟨m, hm, hmnc, hmvar, hmlvl, _⟩ :=
            hinv.conflictPaired r hrnodes hrc
          have hmdec : isDecisionFor m v = true := by
            rw [← hrv', ← hmvar]
            exact isDecisionFor_self m hmnc
          have hxm := filter_length_one_unique _ _ hcount x hx hdec m hm hmdec
          rw [hxm] at hkx
          rw [hmlvl, hrlvl] at hkx
          cases hkx
  · intro n hn
    have hn' : n ∈ (clearDecisions st.graph st.assign L).1.nodes := hn
    rw [h1] at hn'
    have hmem := (List.mem_filter.mp hn').1
    show n.id < (clearDecisions st.graph st.assign L).1.nextId
    rw [h1]
    exact hinv.idsBelow n hmem
  · show ((clearDecisions st.graph st.assign L).1.nodes).Pairwise
      (fun a b => a.id < b.id)
    rw [h1]
    exact hinv.idsSorted.sublist (List.filter_sublist _)
  · intro n hn hconf
    have hn' : n ∈ (clearDecisions st.graph st.assign L).1.nodes := hn
    rw [h1] at hn'
    obtain ⟨hmem, hkn⟩ := List.mem_filter.mp hn'
    obtain ⟨m, hm, hmnc, hmvar, hmlvl, hmid⟩ :=
      hinv.conflictPaired n hmem hconf
    refine ⟨m, ?_, hmnc, hmvar, hmlvl, hmid⟩
    show m ∈ (clearDecisions st.graph st.assign L).1.nodes
    rw [h1]
    apply List.mem_filter.mpr
    refine ⟨hm, ?_⟩
    rw [hmlvl]
    exact hkn

/-- `resolve_conflict` preserves the invariant whenever it returns. -/
theorem resolveConflict_inv (st : SolverState) (b : Bool) (st' : SolverState)
    (hinv : GraphInv st) (h : resolveConflict st = .ok (b, st')) :
    GraphInv st' := by
  unfold resolveConflict at h
  split at h
  · cases h; exact hinv
  · split at h
    · cases h; exact hinv
    · split at h
      · cases h
      · cases h
      · cases h
      · simp only at h
        split at h
        · cases h
          exact GraphInv_of_fields _ _ (clearDecisions_inv st _ hinv) rfl rfl
        · cases h; exact hinv

/-- The invariant holds in the state `solve` hands to `solve_internal`. -/
theorem initState_inv (cs : List RClause) : GraphInv (initState cs) := by
  constructor
  · intro v hv
    simp [initState] at hv
  · intro v _
    rfl
  · intro n hn
    simp [initState, emptyGraph] at hn
  · show (List.nil : List Node).Pairwise (fun a b => a.id < b.id)
    exact List.Pairwise.nil
  · intro n hn
    simp [initState, emptyGraph] at hn

/-- C10: along a solve run every assigned variable has exactly one decision
node in the implication graph and no unassigned variable has one
(`GraphInv`): the invariant holds in the initial state, is preserved by
`decide_simple`, by `bcp` and by `resolve_conflict` (whose truncation resets
a variable exactly when it removes its node), `bcp` never raises — the
predecessor lookups of `add_forced_decision` and `add_conflict` never hit
the empty-iterator branch — and under the invariant the lookup
`next(filter(...))` of an assigned variable always returns a decision
node. -/
theorem c10_decision_node_invariant :
    (∀ cs : List RClause, GraphInv (initState cs)) ∧
      (∀ (st : SolverState) (b : Bool) (st' : SolverState), GraphInv st →
        decideSimple st = .ok (b, st') → GraphInv st') ∧
      (∀ (fuel : Nat) (st : SolverState), GraphInv st →
        bcpLoop fuel st ≠ .crash) ∧
      (∀ (fuel : Nat) (st : SolverState) (b : Bool) (st' : SolverState),
        GraphInv st → bcpLoop fuel st = .ok (b, st') → GraphInv st') ∧
      (∀ (st : SolverState) (b : Bool) (st' : SolverState), GraphInv st →
        resolveConflict st = .ok (b, st') → GraphInv st') ∧
      (∀ (st : SolverState) (v : String), GraphInv st →
        (st.assign v).isSome = true →
        ∃ m, findNodeFor st.graph v = some m ∧ m.isConflict = false) :=
  ⟨initState_inv,
   fun st b st' hinv h => decideSimple_inv st b st' hinv h,
   fun fuel st hinv => (bcpLoop_inv fuel st hinv).1,
   fun fuel st b st' hinv h => (bcpLoop_inv fuel st hinv).2 b st' h,
   fun st b st' hinv h => resolveConflict_inv st b st' hinv h,
   fun st v hinv hv => findNodeFor_decision st v hinv hv⟩

end Sat
